import Mathlib

/-!
Verification of solver_utils.py (value iteration and Q-learning utilities
for a Towers-of-Hanoi MDP).  Python floats are idealized as exact rationals
extended with the IEEE special values minus-infinity, plus-infinity and NaN;
Python dicts are modelled as insertion-ordered association lists with unique
keys, where assignment replaces an existing key in place and appends a fresh
key at the end, exactly as CPython dicts behave.
-/

namespace SolverUtils

set_option linter.unusedSectionVars false

/-- Model of a Python float value: NaN, the two infinities, or a finite
value idealized as an exact rational. -/
inductive PyFloat where
  | nan : PyFloat
  | ninf : PyFloat
  | pinf : PyFloat
  | fin : ℚ → PyFloat
deriving DecidableEq

/-- Python float comparison x < y (IEEE semantics: every comparison with
NaN is false). -/
def pyLt : PyFloat → PyFloat → Bool
  | _, .nan => false
  | .nan, _ => false
  | .ninf, .ninf => false
  | .ninf, _ => true
  | _, .ninf => false
  | .pinf, .pinf => false
  | .pinf, _ => false
  | _, .pinf => true
  | .fin a, .fin b => decide (a < b)

/-- Python float equality x == y (NaN is not equal to anything, including
itself). -/
def pyEq : PyFloat → PyFloat → Bool
  | .nan, _ => false
  | _, .nan => false
  | .ninf, .ninf => true
  | .pinf, .pinf => true
  | .ninf, _ => false
  | _, .ninf => false
  | .pinf, _ => false
  | _, .pinf => false
  | .fin a, .fin b => decide (a = b)

/-- Python float addition with IEEE special-value rules. -/
def pyAdd : PyFloat → PyFloat → PyFloat
  | .nan, _ => .nan
  | _, .nan => .nan
  | .ninf, .pinf => .nan
  | .pinf, .ninf => .nan
  | .ninf, _ => .ninf
  | _, .ninf => .ninf
  | .pinf, _ => .pinf
  | _, .pinf => .pinf
  | .fin a, .fin b => .fin (a + b)

/-- Python float negation. -/
def pyNeg : PyFloat → PyFloat
  | .nan => .nan
  | .ninf => .pinf
  | .pinf => .ninf
  | .fin a => .fin (-a)

/-- Python float subtraction. -/
def pySub (x y : PyFloat) : PyFloat := pyAdd x (pyNeg y)

/-- Python abs on floats. -/
def pyAbs : PyFloat → PyFloat
  | .nan => .nan
  | .ninf => .pinf
  | .pinf => .pinf
  | .fin a => .fin (if a < 0 then -a else a)

/-- Python float multiplication with IEEE special-value rules
(zero times an infinity is NaN). -/
def pyMul : PyFloat → PyFloat → PyFloat
  | .nan, _ => .nan
  | _, .nan => .nan
  | .fin a, .fin b => .fin (a * b)
  | .fin a, .ninf => if 0 < a then .ninf else if a < 0 then .pinf else .nan
  | .ninf, .fin b => if 0 < b then .ninf else if b < 0 then .pinf else .nan
  | .fin a, .pinf => if 0 < a then .pinf else if a < 0 then .ninf else .nan
  | .pinf, .fin b => if 0 < b then .pinf else if b < 0 then .ninf else .nan
  | .ninf, .ninf => .pinf
  | .pinf, .pinf => .pinf
  | .ninf, .pinf => .ninf
  | .pinf, .ninf => .ninf

/-- Python max of two values: the second argument wins only when it is
strictly greater than the first. -/
def pyMax2 (x y : PyFloat) : PyFloat := if pyLt x y then y else x

/-- Python max over a sequence: raises on an empty sequence (modelled as
none), otherwise folds pyMax2 from the first element. -/
def pyMaxList : List PyFloat → Option PyFloat
  | [] => none
  | x :: rest => some (rest.foldl pyMax2 x)

variable {K V : Type} [DecidableEq K]

/-- Lookup in a Python dict modelled as an association list: d[k],
returning none on a missing key (a KeyError in Python). -/
def dlookup : List (K × V) → K → Option V
  | [], _ => none
  | p :: t, k => if k = p.1 then some p.2 else dlookup t k

/-- Python dict assignment d[k] = v: replaces the value of an existing key
in place, otherwise appends the new key at the end, preserving the
insertion order that dict iteration follows. -/
def dset : List (K × V) → K → V → List (K × V)
  | [], k, v => [(k, v)]
  | p :: t, k, v => if k = p.1 then (k, v) :: t else p :: dset t k v

/-- Python dict copy: yields a dict with equal contents.  Freshness of the
allocation is captured by the model of value_iteration, which keeps the
copy in a component separate from the caller-supplied table. -/
def dict_copy (d : List (K × V)) : List (K × V) := d

theorem dlookup_dset_self (d : List (K × V)) (k : K) (v : V) :
    dlookup (dset d k v) k = some v := by
  induction d with
  | nil => simp [dset, dlookup]
  | cons p t ih =>
    by_cases h : k = p.1
    · simp [dset, dlookup, h]
    · simp [dset, dlookup, h, ih]

theorem dlookup_dset_ne (d : List (K × V)) (k k2 : K) (v : V) (h : k2 ≠ k) :
    dlookup (dset d k v) k2 = dlookup d k2 := by
  induction d with
  | nil => simp [dset, dlookup, h]
  | cons p t ih =>
    by_cases hk : k = p.1
    · subst hk
      simp [dset, dlookup, h]
    · by_cases hk2 : k2 = p.1
      · simp [dset, dlookup, hk, hk2]
      · simp [dset, dlookup, hk, hk2, ih]

variable {S A : Type} [DecidableEq S] [DecidableEq A]

/-- A value table V, mapping states to float values (tm.VTable). -/
abbrev VTable (S : Type) := List (S × PyFloat)

/-- A Q-value table, mapping state-action pairs to float values
(tm.QTable). -/
abbrev QTable (S A : Type) := List ((S × A) × PyFloat)

/-- A policy maps nonterminal states to a chosen action; the source can
store Python None when no action was determined (tm.Policy). -/
abbrev Policy (S A : Type) := List (S × Option A)

/-- Modelled from the spec: the configuration record of the external MDP
provider (toh_mdp.TohMdpConfig is not part of src); the solver code only
reads its discount factor gamma. -/
structure TohMdpConfig where
  gamma : ℚ

/-- Modelled from the spec: the interface of the external MDP provider
(toh_mdp.TohMdp is not part of src).  It exposes the nonterminal states,
the shared action list, a deterministic step function returning a pair of
next state and reward, a reward function of state, action and next state,
a goal predicate, the designated terminal state, and the configuration
carrying the discount factor. -/
structure TohMdp (S A : Type) where
  nonterminal_states : List S
  actions : List A
  step : S → A → S × ℚ
  reward : S → A → S → ℚ
  is_goal : S → Bool
  terminal : S
  config : TohMdpConfig

/-- The state of the bindings live across one iteration of the outer loop
of value_iteration: the dict the caller passed as v_table (which the body
never writes), the dict new_v_table obtained from it by copy, the fresh
dict q_table, and the float max_delta. -/
structure VIResult (S A : Type) where
  v_cell : VTable S
  new_v_table : VTable S
  q_table : QTable S A
  max_delta : PyFloat
deriving DecidableEq

/-- The inner action loop of value_iteration (source lines 37 to 40): for
each action, step from the current state, form the q_value
0.8 * (mdp.reward(state, action, next_state) + new_v_table[next_state])
(the literal 0.8 is hard-coded in the source) and store it under
(state, action); a missing next_state in the table is a KeyError. -/
def vi_qloop (mdp : TohMdp S A) (newv : VTable S) (state : S) :
    QTable S A → List A → Option (QTable S A)
  | q, [] => some q
  | q, action :: rest =>
    match mdp.step state action with
    | (next_state, _) =>
      match dlookup newv next_state with
      | none => none
      | some vn =>
        vi_qloop mdp newv state
          (dset q (state, action)
            (pyMul (PyFloat.fin (8 / 10))
              (pyAdd (PyFloat.fin (mdp.reward state action next_state)) vn)))
          rest

/-- Reads back q_table[(state, action)] for every action, as the generator
on source line 43 does. -/
def gather_q (q : QTable S A) (state : S) : List A → Option (List PyFloat)
  | [] => some []
  | a :: rest =>
    match dlookup q (state, a), gather_q q state rest with
    | some v, some vs => some (v :: vs)
    | _, _ => none

/-- One iteration of the outer state loop of value_iteration (source lines
35 to 46): populate the Q-values for the state, set new_v_table[state] to
the max over actions, and fold the absolute value difference against the
caller-supplied table into max_delta. -/
def vi_body (mdp : TohMdp S A) (r : VIResult S A) (state : S) :
    Option (VIResult S A) :=
  match vi_qloop mdp r.new_v_table state r.q_table mdp.actions with
  | none => none
  | some q1 =>
    match gather_q q1 state mdp.actions with
    | none => none
    | some qs =>
      match pyMaxList qs with
      | none => none
      | some vmax =>
        match dlookup (dset r.new_v_table state vmax) state with
        | none => none
        | some vnew =>
          match dlookup r.v_cell state with
          | none => none
          | some vold =>
            some { v_cell := r.v_cell,
                   new_v_table := dset r.new_v_table state vmax,
                   q_table := q1,
                   max_delta := pyMax2 r.max_delta (pyAbs (pySub vnew vold)) }

/-- The for loop over mdp.nonterminal_states in value_iteration. -/
def vi_sweep (mdp : TohMdp S A) : List S → VIResult S A → Option (VIResult S A)
  | [], r => some r
  | s :: rest, r =>
    match vi_body mdp r s with
    | none => none
    | some r2 => vi_sweep mdp rest r2

/-- One step of value iteration (source lines 8 to 47).  The result keeps
the final contents of the caller-supplied dict in v_cell next to the
returned triple of new_v_table, q_table and max_delta, so that the absence
of writes to the input table is expressible; new_v_table starts as a copy
of the input and q_table starts empty. -/
def value_iteration (mdp : TohMdp S A) (v_table : VTable S) :
    Option (VIResult S A) :=
  vi_sweep mdp mdp.nonterminal_states
    { v_cell := v_table, new_v_table := dict_copy v_table,
      q_table := [], max_delta := PyFloat.fin 0 }

/-- Repeated application of value_iteration, feeding the returned
new_v_table back in, as the driving loop does. -/
def vi_iterate (mdp : TohMdp S A) : Nat → VTable S → Option (VTable S)
  | 0, v => some v
  | n + 1, v =>
    match value_iteration mdp v with
    | none => none
    | some r => vi_iterate mdp n r.new_v_table

/-- The per-state scan of extract_policy (source lines 70 to 77): walk the
actions in their fixed enumeration order, adopting an action whenever its
pair is present in the table and its Q-value strictly exceeds the best
seen so far. -/
def policy_scan (q_table : QTable S A) (state : S) :
    Option A × PyFloat → List A → Option A × PyFloat
  | b, [] => b
  | b, action :: rest =>
    match dlookup q_table (state, action) with
    | some qv =>
      policy_scan q_table state
        (if pyLt b.2 qv then (some action, qv) else b) rest
    | none => policy_scan q_table state b rest

/-- The best action chosen for one state by extract_policy: the scan over
all actions starting from the Python None action and minus-infinity. -/
def best_action_for (mdp : TohMdp S A) (q_table : QTable S A) (state : S) :
    Option A × PyFloat :=
  policy_scan q_table state (none, PyFloat.ninf) mdp.actions

/-- extract_policy (source lines 50 to 80): builds a fresh dict mapping
every nonterminal state to its best action; the Q-table is only read. -/
def extract_policy (mdp : TohMdp S A) (q_table : QTable S A) : Policy S A :=
  mdp.nonterminal_states.foldl
    (fun pol state => dset pol state (best_action_for mdp q_table state).1) []

/-- The bootstrap maximum of q_update (source lines 99 to 106): when the
transition state is not a goal, scan every pair in the table and keep the
largest value whose key state equals next_state, starting from
minus-infinity; when it is a goal, exactly 0. -/
def bootstrap_max (mdp : TohMdp S A) (q_table : QTable S A)
    (state next_state : S) : PyFloat :=
  if mdp.is_goal state = false then
    q_table.foldl
      (fun m p =>
        if p.1.1 = next_state then (if pyLt m p.2 then p.2 else m) else m)
      PyFloat.ninf
  else PyFloat.fin 0

/-- q_update (source lines 82 to 109): computes
sample = reward + gamma * maxQ with gamma = mdp.config.gamma and writes
(1 - alpha) * q_table[state, action] + alpha * sample back into the table.
The read of q_table[state, action] on source line 109 is a KeyError when
the pair is absent, modelled as a none result. -/
def q_update (mdp : TohMdp S A) (q_table : QTable S A)
    (transition : S × A × ℚ × S) (alpha : ℚ) : Option (QTable S A) :=
  let state := transition.1
  let action := transition.2.1
  let reward := transition.2.2.1
  let next_state := transition.2.2.2
  let maxQ := bootstrap_max mdp q_table state next_state
  let sample := pyAdd (PyFloat.fin reward)
    (pyMul (PyFloat.fin mdp.config.gamma) maxQ)
  match dlookup q_table (state, action) with
  | some prior =>
    some (dset q_table (state, action)
      (pyAdd (pyMul (PyFloat.fin (1 - alpha)) prior)
        (pyMul (PyFloat.fin alpha) sample)))
  | none => none

/-- One iteration of the loop of extract_v_table (source lines 125 to
129): initialize a missing state entry to minus-infinity, then raise it to
the pair value if that is strictly greater. -/
def ev_step (v : VTable S) (p : (S × A) × PyFloat) : VTable S :=
  let v1 := if (dlookup v p.1.1).isSome then v else dset v p.1.1 PyFloat.ninf
  match dlookup v1 p.1.1 with
  | some cur => if pyLt cur p.2 then dset v1 p.1.1 p.2 else v1
  | none => v1

/-- The loop of extract_v_table over the pairs of the Q-table in insertion
order. -/
def ev_loop : VTable S → QTable S A → VTable S
  | v, [] => v
  | v, p :: rest => ev_loop (ev_step v p) rest

/-- extract_v_table (source lines 112 to 130): runs the loop over the
pairs of the Q-table starting from an empty dict.  The mdp argument is
unused in the source body. -/
def extract_v_table (_mdp : TohMdp S A) (q_table : QTable S A) : VTable S :=
  ev_loop [] q_table

/-- The first scan of choose_next_action (source lines 167 to 171): walk
the pairs of the table in insertion order and adopt the pair action and
value whenever the pair state matches and the value strictly exceeds the
best seen so far. -/
def best_scan (state : S) :
    Option A × PyFloat → QTable S A → Option A × PyFloat
  | b, [] => b
  | b, p :: rest =>
    best_scan state
      (if p.1.1 = state then
        (if pyLt b.2 p.2 then (some p.1.2, p.2) else b)
      else b)
      rest

/-- The candidate list that choose_next_action builds (source lines 164 to
176): the best action found by the first scan (Python None when the table
has no entry for the state), followed by every action of the state whose
value compares equal to the best value, in table order. -/
def choose_best_list (state : S) (q_table : QTable S A) : List (Option A) :=
  let bb := best_scan state (none, PyFloat.ninf) q_table
  bb.1 :: q_table.filterMap
    (fun p =>
      if p.1.1 = state then
        (if pyEq p.2 bb.2 then some (some p.1.2) else none)
      else none)

/-- choose_next_action (source lines 133 to 178): delegates the choice to
the injected epsilon_greedy function, passing it the candidate list and
epsilon. -/
def choose_next_action (_mdp : TohMdp S A) (state : S) (epsilon : ℚ)
    (q_table : QTable S A)
    (epsilon_greedy : List (Option A) → ℚ → Option A) : Option A :=
  epsilon_greedy (choose_best_list state q_table) epsilon

/-- custom_epsilon (source lines 181 to 194): the body returns n_step
itself. -/
def custom_epsilon (n_step : ℤ) : ℚ := (n_step : ℚ)

/-- custom_alpha (source lines 197 to 209): the body holds only the
docstring and a comment, so the Python function falls off the end and
returns None, modelled as none. -/
def custom_alpha (_n_step : ℤ) : Option ℚ := none

/-- A concrete two-state MDP instantiating the toy domain of the spec but
with discount factor one half: state 0 is terminal, state 1 is the sole
nonterminal state, the single action 0 steps from 1 to 0 with reward 10. -/
def mdpC1 : TohMdp ℕ ℕ where
  nonterminal_states := [1]
  actions := [0]
  step := fun _ _ => (0, 10)
  reward := fun _ _ _ => 10
  is_goal := fun _ => false
  terminal := 0
  config := { gamma := 1 / 2 }

/-- The all-zero value table for mdpC1 covering both states. -/
def vtC1 : VTable ℕ := [(1, PyFloat.fin 0), (0, PyFloat.fin 0)]

/-- A concrete three-state MDP for the sweep-order claim: state 0 is
terminal, states 1 and 2 are nonterminal and updated in that order, the
single action 0 steps from 1 to 0 with reward 10 and from 2 to 1 with
reward 0, and the configured discount factor matches the hard-coded 0.8 so
that only the sweep order is at issue. -/
def mdpC2 : TohMdp ℕ ℕ where
  nonterminal_states := [1, 2]
  actions := [0]
  step := fun s _ => if s = 1 then (0, 10) else (1, 0)
  reward := fun s _ _ => if s = 1 then 10 else 0
  is_goal := fun _ => false
  terminal := 0
  config := { gamma := 8 / 10 }

/-- The all-zero value table for mdpC2 covering all three states. -/
def vtC2 : VTable ℕ :=
  [(0, PyFloat.fin 0), (1, PyFloat.fin 0), (2, PyFloat.fin 0)]

/-- A concrete MDP whose goal predicate holds exactly at state 5, with
discount factor nine tenths, used for the Q-update claims. -/
def mdpG : TohMdp ℕ ℕ where
  nonterminal_states := [1, 5]
  actions := [0, 1]
  step := fun _ _ => (0, 0)
  reward := fun _ _ _ => 0
  is_goal := fun s => decide (s = 5)
  terminal := 0
  config := { gamma := 9 / 10 }

/-- Claim C1, refuted: value_iteration is claimed to scale every Q-value
by the configured discount factor mdp.config.gamma, but the source
hard-codes the literal 0.8 on line 39.  On the concrete MDP mdpC1 with
gamma equal to one half, the computed Q-value of the sole state-action
pair is 8, while the claimed formula gamma times the sum of reward 10 and
previous value 0 gives 5. -/
theorem value_iteration_hardcoded_discount :
    value_iteration mdpC1 vtC1 = some
        { v_cell := vtC1,
          new_v_table := [(1, PyFloat.fin 8), (0, PyFloat.fin 0)],
          q_table := [((1, 0), PyFloat.fin 8)],
          max_delta := PyFloat.fin 8 }
      ∧ dlookup vtC1 0 = some (PyFloat.fin 0)
      ∧ mdpC1.config.gamma * (mdpC1.reward 1 0 0 + 0) ≠ (8 : ℚ) := by
  refine ⟨?_, ?_, ?_⟩ <;>
    norm_num [value_iteration, vi_sweep, vi_body, vi_qloop, gather_q,
      pyMaxList, pyMax2, pyMul, pyAdd, pySub, pyNeg, pyAbs, pyLt, dlookup,
      dset, dict_copy, mdpC1, vtC1]

/-- Claim C2, refuted: value_iteration is claimed to compute every new
state value from the previous-iteration snapshot only, but the source
reads new_v_table, which it updates in place during the sweep.  On the
concrete MDP mdpC2, state 2 steps to state 1, the previous value of state
1 is 0, so the claimed synchronous formula gives 0.8 times 0 equal to 0
for state 2, while the code uses the freshly updated value 8 of state 1
and yields 32 over 5. -/
theorem value_iteration_seidel_update :
    value_iteration mdpC2 vtC2 = some
        { v_cell := vtC2,
          new_v_table :=
            [(0, PyFloat.fin 0), (1, PyFloat.fin 8),
             (2, PyFloat.fin (32 / 5))],
          q_table :=
            [((1, 0), PyFloat.fin 8), ((2, 0), PyFloat.fin (32 / 5))],
          max_delta := PyFloat.fin 8 }
      ∧ dlookup vtC2 1 = some (PyFloat.fin 0)
      ∧ (32 / 5 : ℚ) ≠ mdpC2.config.gamma * (mdpC2.reward 2 0 1 + 0) := by
  refine ⟨?_, ?_, ?_⟩ <;>
    norm_num [value_iteration, vi_sweep, vi_body, vi_qloop, gather_q,
      pyMaxList, pyMax2, pyMul, pyAdd, pySub, pyNeg, pyAbs, pyLt, dlookup,
      dset, dict_copy, mdpC2, vtC2]

/-- Claim C5, refuted: the schedules are claimed to land in the unit
interval, but custom_epsilon returns the step count itself, which at step
2 is 2 and above 1, and custom_alpha has no return statement and yields
the Python None instead of a float. -/
theorem custom_schedules_unimplemented :
    custom_epsilon 2 = 2 ∧ ¬ custom_epsilon 2 ≤ 1 ∧ custom_alpha 2 = none := by
  refine ⟨?_, ?_, ?_⟩ <;> norm_num [custom_epsilon, custom_alpha]

variable {S A : Type} [DecidableEq S] [DecidableEq A]

/-- Claim C4, confirmed: when the transition state satisfies the goal
predicate, q_update sets the bootstrap maximum to the literal 0 and never
inspects next_state, so two transitions differing only in next_state
produce identical results on every Q-table and for every alpha. -/
theorem q_update_goal_ignores_next (mdp : TohMdp S A) (q : QTable S A)
    (s : S) (a : A) (r alpha : ℚ) (s1 s2 : S)
    (hg : mdp.is_goal s = true) :
    q_update mdp q (s, a, r, s1) alpha = q_update mdp q (s, a, r, s2) alpha := by
  simp [q_update, bootstrap_max, hg]

/-- Witness for claim C4 at a concrete goal state, table and alpha. -/
theorem q_update_goal_ignores_next_witness :
    mdpG.is_goal 5 = true ∧
      q_update mdpG [((5, 0), PyFloat.fin 2)] (5, 0, 3, 7) (1 / 2)
        = q_update mdpG [((5, 0), PyFloat.fin 2)] (5, 0, 3, 9) (1 / 2) :=
  ⟨by decide,
    q_update_goal_ignores_next mdpG [((5, 0), PyFloat.fin 2)] 5 0 3 (1 / 2) 7 9
      (by decide)⟩

/-- Counterexample to claim C3: on the empty Q-table the pair (5, 0) is
absent, and q_update fails with a missing-key error (modelled as none)
instead of treating the prior value as 0 and succeeding. -/
theorem q_update_missing_pair_fails :
    dlookup ([] : QTable ℕ ℕ) (5, 0) = none ∧
      q_update mdpG ([] : QTable ℕ ℕ) (5, 0, 10, 7) (1 / 2) = none :=
  ⟨rfl, rfl⟩

/-- Claim C3 as amended: when the pair is present with prior value p and
the bootstrap maximum is the finite value m, q_update succeeds and stores
exactly the value of the standard incremental update with the configured
discount factor. -/
theorem q_update_present_formula (mdp : TohMdp S A) (q : QTable S A)
    (s : S) (a : A) (r alpha p m : ℚ) (sn : S)
    (hp : dlookup q (s, a) = some (PyFloat.fin p))
    (hm : bootstrap_max mdp q s sn = PyFloat.fin m) :
    q_update mdp q (s, a, r, sn) alpha
      = some (dset q (s, a)
          (PyFloat.fin
            ((1 - alpha) * p + alpha * (r + mdp.config.gamma * m)))) := by
  simp [q_update, hp, hm, pyAdd, pyMul]

/-- Witness for the amended claim C3 at a concrete goal-state transition:
the prior value 2 and the reward 10 combine, with alpha one half and
bootstrap maximum 0, into the stored value 6. -/
theorem q_update_present_formula_witness :
    dlookup [((5, 0), PyFloat.fin 2)] ((5 : ℕ), (0 : ℕ)) = some (PyFloat.fin 2)
      ∧ bootstrap_max mdpG [((5, 0), PyFloat.fin 2)] 5 7 = PyFloat.fin 0
      ∧ q_update mdpG [((5, 0), PyFloat.fin 2)] (5, 0, 10, 7) (1 / 2)
          = some [((5, 0), PyFloat.fin 6)] :=
  ⟨rfl, rfl,
    (q_update_present_formula mdpG [((5, 0), PyFloat.fin 2)] 5 0 10 (1 / 2) 2 0 7
        (by rfl) (by rfl)).trans (by norm_num [dset, mdpG])⟩

theorem vi_body_v_cell (mdp : TohMdp S A) (r r2 : VIResult S A) (s : S)
    (h : vi_body mdp r s = some r2) : r2.v_cell = r.v_cell := by
  unfold vi_body at h
  repeat' split at h
  all_goals first
  | exact Option.noConfusion h
  | (injection h with h2; rw [← h2])

theorem vi_sweep_v_cell (mdp : TohMdp S A) :
    ∀ (l : List S) (r r2 : VIResult S A),
      vi_sweep mdp l r = some r2 → r2.v_cell = r.v_cell := by
  intro l
  induction l with
  | nil =>
    intro r r2 h
    simp only [vi_sweep, Option.some.injEq] at h
    rw [h]
  | cons s rest ih =>
    intro r r2 h
    simp only [vi_sweep] at h
    cases hb : vi_body mdp r s with
    | none => rw [hb] at h; exact absurd h (by simp)
    | some rmid =>
      rw [hb] at h
      exact (ih rmid r2 h).trans (vi_body_v_cell mdp r rmid s hb)

/-- Claim C9, confirmed: the model of value_iteration carries the
caller-supplied dict as a separate cell, written by no statement of the
body (new_v_table is a copy and q_table starts fresh), and whenever the
call succeeds that cell still holds exactly the input table. -/
theorem value_iteration_input_unchanged (mdp : TohMdp S A) (v : VTable S)
    (out : VIResult S A) (h : value_iteration mdp v = some out) :
    out.v_cell = v :=
  vi_sweep_v_cell mdp mdp.nonterminal_states _ out h

/-- Witness for claim C9 on the concrete MDP mdpC1. -/
theorem value_iteration_input_unchanged_witness :
    value_iteration mdpC1 vtC1 = some
        { v_cell := vtC1,
          new_v_table := [(1, PyFloat.fin 8), (0, PyFloat.fin 0)],
          q_table := [((1, 0), PyFloat.fin 8)],
          max_delta := PyFloat.fin 8 }
      ∧ ({ v_cell := vtC1,
           new_v_table := [(1, PyFloat.fin 8), (0, PyFloat.fin 0)],
           q_table := [((1, 0), PyFloat.fin 8)],
           max_delta := PyFloat.fin 8 } : VIResult ℕ ℕ).v_cell = vtC1 :=
  ⟨by norm_num [value_iteration, vi_sweep, vi_body, vi_qloop, gather_q,
      pyMaxList, pyMax2, pyMul, pyAdd, pySub, pyNeg, pyAbs, pyLt, dlookup,
      dset, dict_copy, mdpC1, vtC1],
    value_iteration_input_unchanged mdpC1 vtC1 _
      (by norm_num [value_iteration, vi_sweep, vi_body, vi_qloop, gather_q,
        pyMaxList, pyMax2, pyMul, pyAdd, pySub, pyNeg, pyAbs, pyLt, dlookup,
        dset, dict_copy, mdpC1, vtC1])⟩

theorem vi_body_other_key (mdp : TohMdp S A) (r r2 : VIResult S A) (s t : S)
    (hne : t ≠ s) (h : vi_body mdp r s = some r2) :
    dlookup r2.new_v_table t = dlookup r.new_v_table t := by
  unfold vi_body at h
  repeat' split at h
  all_goals first
  | exact Option.noConfusion h
  | (injection h with h2; rw [← h2]; exact dlookup_dset_ne _ _ _ _ hne)

theorem vi_sweep_other_key (mdp : TohMdp S A) :
    ∀ (l : List S) (r r2 : VIResult S A) (t : S),
      vi_sweep mdp l r = some r2 → t ∉ l →
      dlookup r2.new_v_table t = dlookup r.new_v_table t := by
  intro l
  induction l with
  | nil =>
    intro r r2 t h _
    simp only [vi_sweep, Option.some.injEq] at h
    rw [h]
  | cons s rest ih =>
    intro r r2 t h ht
    simp only [vi_sweep] at h
    cases hb : vi_body mdp r s with
    | none => rw [hb] at h; exact absurd h (by simp)
    | some rmid =>
      rw [hb] at h
      have h1 : t ∉ rest := fun hx => ht (List.mem_cons_of_mem _ hx)
      have h2 : t ≠ s := fun hx => ht (hx ▸ List.mem_cons_self _ _)
      exact (ih rmid r2 t h h1).trans (vi_body_other_key mdp r rmid s t h2 hb)

/-- Claim C8, confirmed: value_iteration only writes new_v_table at keys
drawn from mdp.nonterminal_states, so when the terminal state is not among
them and starts at value 0, any number of successive applications leaves
its entry at exactly 0. -/
theorem value_iteration_terminal_zero (mdp : TohMdp S A)
    (hterm : mdp.terminal ∉ mdp.nonterminal_states) :
    ∀ (n : Nat) (v : VTable S),
      dlookup v mdp.terminal = some (PyFloat.fin 0) →
      ∀ out, vi_iterate mdp n v = some out →
        dlookup out mdp.terminal = some (PyFloat.fin 0) := by
  intro n
  induction n with
  | zero =>
    intro v h0 out h
    simp only [vi_iterate, Option.some.injEq] at h
    rw [← h]; exact h0
  | succ n ih =>
    intro v h0 out h
    simp only [vi_iterate] at h
    cases hv : value_iteration mdp v with
    | none => rw [hv] at h; exact absurd h (by simp)
    | some r =>
      rw [hv] at h
      have hr : dlookup r.new_v_table mdp.terminal = dlookup v mdp.terminal := by
        have := vi_sweep_other_key mdp mdp.nonterminal_states _ r mdp.terminal hv hterm
        simpa [dict_copy] using this
      exact ih r.new_v_table (hr.trans h0) out h

/-- Witness for claim C8 on the concrete MDP mdpC1 after two sweeps. -/
theorem value_iteration_terminal_zero_witness :
    mdpC1.terminal ∉ mdpC1.nonterminal_states
      ∧ dlookup vtC1 mdpC1.terminal = some (PyFloat.fin 0)
      ∧ dlookup [(1, PyFloat.fin 8), (0, PyFloat.fin 0)] mdpC1.terminal
          = some (PyFloat.fin 0) :=
  ⟨by decide, rfl,
    value_iteration_terminal_zero mdpC1 (by decide) 2 vtC1 rfl
      [(1, PyFloat.fin 8), (0, PyFloat.fin 0)]
      (by norm_num [vi_iterate, value_iteration, vi_sweep, vi_body, vi_qloop,
        gather_q, pyMaxList, pyMax2, pyMul, pyAdd, pySub, pyNeg, pyAbs, pyLt,
        dlookup, dset, dict_copy, mdpC1, vtC1])⟩

theorem dlookup_mem {K V : Type} [DecidableEq K] {d : List (K × V)} {k : K}
    {v : V} (h : dlookup d k = some v) : (k, v) ∈ d := by
  induction d with
  | nil => exact Option.noConfusion h
  | cons p t ih =>
    by_cases hk : k = p.1
    · subst hk
      simp only [dlookup, eq_self_iff_true, if_true, Option.some.injEq] at h
      subst h
      simp
    · simp only [dlookup, if_neg hk] at h
      exact List.mem_cons_of_mem _ (ih h)

theorem policy_scan_spec (q : QTable S A) (state : S)
    (hfin : ∀ p ∈ q, ∃ x, p.2 = PyFloat.fin x) :
    ∀ (l : List A) (b : Option A × PyFloat),
      (b.2 = PyFloat.ninf ∨ ∃ c, b.2 = PyFloat.fin c) →
      ((policy_scan q state b l = b
          ∧ ∀ a ∈ l, ∀ y, dlookup q (state, a) = some y → pyLt b.2 y = false)
        ∨ (∃ a0 m, policy_scan q state b l = (some a0, PyFloat.fin m)
            ∧ a0 ∈ l ∧ dlookup q (state, a0) = some (PyFloat.fin m)
            ∧ pyLt b.2 (PyFloat.fin m) = true
            ∧ (∀ a ∈ l, ∀ y, dlookup q (state, a) = some y →
                pyLt (PyFloat.fin m) y = false)
            ∧ (l.filter (fun a =>
                decide (dlookup q (state, a) = some (PyFloat.fin m)))).head?
                = some a0)) := by
  intro l
  induction l with
  | nil =>
    intro b _
    exact Or.inl ⟨rfl, by simp⟩
  | cons a rest ih =>
    intro b hb
    cases hl : dlookup q (state, a) with
    | none =>
      have step : policy_scan q state b (a :: rest)
          = policy_scan q state b rest := by
        simp [policy_scan, hl]
      rcases ih b hb with ⟨hR, hdom⟩ | ⟨a0, m, hres, hmem, hlook, hgt, hdom, hfilt⟩
      · left
        refine ⟨step.trans hR, ?_⟩
        intro a2 ha2 y hy
        rcases List.mem_cons.mp ha2 with h | h
        · subst h; rw [hl] at hy; exact Option.noConfusion hy
        · exact hdom a2 h y hy
      · right
        refine ⟨a0, m, step.trans hres, List.mem_cons_of_mem _ hmem, hlook, hgt,
          ?_, ?_⟩
        · intro a2 ha2 y hy
          rcases List.mem_cons.mp ha2 with h | h
          · subst h; rw [hl] at hy; exact Option.noConfusion hy
          · exact hdom a2 h y hy
        · have hfa : decide (dlookup q (state, a) = some (PyFloat.fin m)) = false := by
            simp [hl]
          simp only [List.filter_cons, hfa, Bool.false_eq_true, if_false]
          exact hfilt
    | some qv =>
      obtain ⟨x, hx⟩ := hfin _ (dlookup_mem hl)
      simp only at hx
      subst hx
      by_cases hlt : pyLt b.2 (PyFloat.fin x) = true
      · have step : policy_scan q state b (a :: rest)
            = policy_scan q state (some a, PyFloat.fin x) rest := by
          simp [policy_scan, hl, hlt]
        rcases ih (some a, PyFloat.fin x) (Or.inr ⟨x, rfl⟩)
          with ⟨hR, hdom⟩ | ⟨a0, m, hres, hmem, hlook, hgt, hdom, hfilt⟩
        · right
          refine ⟨a, x, step.trans hR, List.mem_cons_self _ _, hl, hlt, ?_, ?_⟩
          · intro a2 ha2 y hy
            rcases List.mem_cons.mp ha2 with h | h
            · subst h; rw [hl] at hy; injection hy with hy2; subst hy2
              simp [pyLt]
            · exact hdom a2 h y hy
          · have hfa : decide (dlookup q (state, a) = some (PyFloat.fin x)) = true := by
              simp [hl]
            simp only [List.filter_cons, hfa, if_true]
            rfl
        · right
          have hxm : x < m := by simpa [pyLt] using hgt
          refine ⟨a0, m, step.trans hres, List.mem_cons_of_mem _ hmem, hlook,
            ?_, ?_, ?_⟩
          · rcases hb with hbn | ⟨c, hbc⟩
            · rw [hbn]; rfl
            · rw [hbc]
              rw [hbc] at hlt
              simp only [pyLt, decide_eq_true_eq] at hlt ⊢
              linarith
          · intro a2 ha2 y hy
            rcases List.mem_cons.mp ha2 with h | h
            · subst h; rw [hl] at hy; injection hy with hy2; subst hy2
              simp only [pyLt, decide_eq_false_iff_not, not_lt]
              linarith
            · exact hdom a2 h y hy
          · have hfa : decide (dlookup q (state, a) = some (PyFloat.fin m)) = false := by
              simp only [hl, decide_eq_false_iff_not, Option.some.injEq,
                PyFloat.fin.injEq]
              exact ne_of_lt hxm
            simp only [List.filter_cons, hfa, Bool.false_eq_true, if_false]
            exact hfilt
      · have hltf : pyLt b.2 (PyFloat.fin x) = false :=
          Bool.eq_false_iff.mpr hlt
        have step : policy_scan q state b (a :: rest)
            = policy_scan q state b rest := by
          simp [policy_scan, hl, hltf]
        obtain ⟨c, hbc⟩ : ∃ c, b.2 = PyFloat.fin c := by
          rcases hb with hbn | h
          · rw [hbn] at hltf; exact absurd hltf (by simp [pyLt])
          · exact h
        have hxc : x ≤ c := by
          rw [hbc] at hltf
          simpa [pyLt, not_lt] using hltf
        rcases ih b hb with ⟨hR, hdom⟩ | ⟨a0, m, hres, hmem, hlook, hgt, hdom, hfilt⟩
        · left
          refine ⟨step.trans hR, ?_⟩
          intro a2 ha2 y hy
          rcases List.mem_cons.mp ha2 with h | h
          · subst h; rw [hl] at hy; injection hy with hy2; subst hy2; exact hltf
          · exact hdom a2 h y hy
        · right
          have hcm : c < m := by
            rw [hbc] at hgt
            simpa [pyLt] using hgt
          refine ⟨a0, m, step.trans hres, List.mem_cons_of_mem _ hmem, hlook,
            hgt, ?_, ?_⟩
          · intro a2 ha2 y hy
            rcases List.mem_cons.mp ha2 with h | h
            · subst h; rw [hl] at hy; injection hy with hy2; subst hy2
              simp only [pyLt, decide_eq_false_iff_not, not_lt]
              linarith
            · exact hdom a2 h y hy
          · have hfa : decide (dlookup q (state, a) = some (PyFloat.fin m)) = false := by
              simp only [hl, decide_eq_false_iff_not, Option.some.injEq,
                PyFloat.fin.injEq]
              intro h
              rw [h] at hxc
              linarith
            simp only [List.filter_cons, hfa, Bool.false_eq_true, if_false]
            exact hfilt

theorem extract_policy_fold (mdp : TohMdp S A) (q : QTable S A) (s : S) :
    ∀ (l : List S) (pol0 : Policy S A),
      (s ∈ l ∨ dlookup pol0 s = some (best_action_for mdp q s).1) →
      dlookup
        (l.foldl
          (fun pol state => dset pol state (best_action_for mdp q state).1)
          pol0) s
        = some (best_action_for mdp q s).1 := by
  intro l
  induction l with
  | nil =>
    intro pol0 h
    rcases h with h | h
    · exact absurd h (List.not_mem_nil s)
    · simpa using h
  | cons st rest ih =>
    intro pol0 h
    simp only [List.foldl_cons]
    by_cases hst : s = st
    · subst hst
      exact ih _ (Or.inr (dlookup_dset_self _ _ _))
    · rcases h with h | h
      · rcases List.mem_cons.mp h with h2 | h2
        · exact absurd h2 hst
        · exact ih _ (Or.inl h2)
      · exact ih _ (Or.inr ((dlookup_dset_ne _ _ _ _ hst).trans h))

/-- Claim C7, confirmed: for every nonterminal state with at least one
present pair in a Q-table of finite values, extract_policy stores an
action a0 whose Q-value m is present, no present Q-value of the state
exceeds m, and a0 is the first action in the fixed enumeration order
attaining m; the Q-table itself is only read (the model of extract_policy
is a pure function of it). -/
theorem extract_policy_greedy (mdp : TohMdp S A) (q : QTable S A) (s : S)
    (hs : s ∈ mdp.nonterminal_states)
    (hfin : ∀ p ∈ q, ∃ x, p.2 = PyFloat.fin x)
    (hex : ∃ a ∈ mdp.actions, ∃ y, dlookup q (s, a) = some y) :
    ∃ a0 m,
      dlookup (extract_policy mdp q) s = some (some a0)
        ∧ dlookup q (s, a0) = some (PyFloat.fin m)
        ∧ (∀ b ∈ mdp.actions, ∀ y, dlookup q (s, b) = some y →
            pyLt (PyFloat.fin m) y = false)
        ∧ (mdp.actions.filter (fun b =>
            decide (dlookup q (s, b) = some (PyFloat.fin m)))).head?
            = some a0 := by
  have hpol : dlookup (extract_policy mdp q) s
      = some (best_action_for mdp q s).1 :=
    extract_policy_fold mdp q s mdp.nonterminal_states [] (Or.inl hs)
  rcases policy_scan_spec q s hfin mdp.actions (none, PyFloat.ninf) (Or.inl rfl)
    with ⟨_, hdom⟩ | ⟨a0, m, hres, _, hlook, _, hdom, hfilt⟩
  · exfalso
    obtain ⟨a, ha, y, hy⟩ := hex
    obtain ⟨x, hx⟩ := hfin _ (dlookup_mem hy)
    simp only at hx
    have := hdom a ha y hy
    rw [hx] at this
    exact absurd this (by simp [pyLt])
  · refine ⟨a0, m, ?_, hlook, hdom, hfilt⟩
    rw [hpol]
    unfold best_action_for
    rw [hres]

/-- A concrete Q-table with two tied entries for state 1, exercising the
first-encounter tie-break of extract_policy. -/
def qC7 : QTable ℕ ℕ := [((1, 0), PyFloat.fin 3), ((1, 1), PyFloat.fin 3)]

/-- Witness for claim C7 on the concrete MDP mdpG and table qC7: the tie
between actions 0 and 1 is broken toward action 0, the first in the
enumeration order. -/
theorem extract_policy_greedy_witness :
    ((1 : ℕ) ∈ mdpG.nonterminal_states)
      ∧ (∃ a ∈ mdpG.actions, ∃ y, dlookup qC7 ((1 : ℕ), a) = some y)
      ∧ (∃ a0 m, dlookup (extract_policy mdpG qC7) 1 = some (some a0)
          ∧ dlookup qC7 (1, a0) = some (PyFloat.fin m)
          ∧ (∀ b ∈ mdpG.actions, ∀ y, dlookup qC7 (1, b) = some y →
              pyLt (PyFloat.fin m) y = false)
          ∧ (mdpG.actions.filter (fun b =>
              decide (dlookup qC7 (1, b) = some (PyFloat.fin m)))).head?
              = some a0) :=
  ⟨by decide, ⟨0, by decide, PyFloat.fin 3, by rfl⟩,
    extract_policy_greedy mdpG qC7 1 (by decide)
      (by
        intro p hp
        simp only [qC7, List.mem_cons, List.not_mem_nil, or_false] at hp
        rcases hp with h | h <;> subst h <;> exact ⟨3, rfl⟩)
      ⟨0, by decide, PyFloat.fin 3, by rfl⟩⟩

theorem head_filterMap_cons_none {B C : Type} (f : B → Option C) (a : B)
    (l : List B) (h : f a = none) :
    (List.filterMap f (a :: l)).head? = (List.filterMap f l).head? := by
  rw [List.filterMap_cons_none h]

theorem head_filterMap_cons_some {B C : Type} (f : B → Option C) (a : B)
    (l : List B) (b : C) (h : f a = some b) :
    (List.filterMap f (a :: l)).head? = some b := by
  rw [List.filterMap_cons_some h]
  rfl

theorem best_scan_spec (state : S) :
    ∀ (l : QTable S A) (b : Option A × PyFloat),
      (∀ p ∈ l, p.1.1 = state → ∃ x, p.2 = PyFloat.fin x) →
      (b.2 = PyFloat.ninf ∨ ∃ c, b.2 = PyFloat.fin c) →
      ((best_scan state b l = b
          ∧ ∀ p ∈ l, p.1.1 = state → pyLt b.2 p.2 = false)
        ∨ (∃ a0 m, best_scan state b l = (some a0, PyFloat.fin m)
            ∧ ((state, a0), PyFloat.fin m) ∈ l
            ∧ pyLt b.2 (PyFloat.fin m) = true
            ∧ (∀ p ∈ l, p.1.1 = state → pyLt (PyFloat.fin m) p.2 = false)
            ∧ (l.filterMap (fun p =>
                if p.1.1 = state then
                  (if pyEq p.2 (PyFloat.fin m) then some (some p.1.2) else none)
                else none)).head? = some (some a0))) := by
  intro l
  induction l with
  | nil =>
    intro b _ _
    exact Or.inl ⟨rfl, by simp⟩
  | cons p rest ih =>
    intro b hfin hb
    obtain ⟨⟨ps, pa⟩, pv⟩ := p
    have hrest : ∀ p2 ∈ rest, p2.1.1 = state → ∃ x, p2.2 = PyFloat.fin x :=
      fun p2 hp2 hp2s => hfin p2 (List.mem_cons_of_mem _ hp2) hp2s
    by_cases hps : ps = state
    · have hps2 : state = ps := hps.symm
      subst hps2
      obtain ⟨x, hx⟩ := hfin _ (List.mem_cons_self _ _) rfl
      simp only at hx
      subst hx
      by_cases hlt : pyLt b.2 (PyFloat.fin x) = true
      · have step : best_scan state b (((state, pa), PyFloat.fin x) :: rest)
            = best_scan state (some pa, PyFloat.fin x) rest := by
          simp [best_scan, hlt]
        rcases ih (some pa, PyFloat.fin x) hrest (Or.inr ⟨x, rfl⟩)
          with ⟨hR, hdom⟩ | ⟨a0, m, hres, hmem, hgt, hdom, hhead⟩
        · right
          refine ⟨pa, x, step.trans hR, List.mem_cons_self _ _, hlt, ?_, ?_⟩
          · intro p2 hp2 hp2s
            rcases List.mem_cons.mp hp2 with h | h
            · subst h; simp [pyLt]
            · exact hdom p2 h hp2s
          · have hfa : (fun p =>
                if p.1.1 = state then
                  (if pyEq p.2 (PyFloat.fin x) then some (some p.1.2) else none)
                else none) ((state, pa), PyFloat.fin x) = some (some pa) := by
              simp [pyEq]
            exact head_filterMap_cons_some
              (fun p =>
                if p.1.1 = state then
                  (if pyEq p.2 (PyFloat.fin x) then some (some p.1.2) else none)
                else none)
              ((state, pa), PyFloat.fin x) rest (some pa) hfa
        · right
          have hxm : x < m := by simpa [pyLt] using hgt
          refine ⟨a0, m, step.trans hres, List.mem_cons_of_mem _ hmem, ?_, ?_, ?_⟩
          · rcases hb with hbn | ⟨c, hbc⟩
            · rw [hbn]; rfl
            · rw [hbc]
              rw [hbc] at hlt
              simp only [pyLt, decide_eq_true_eq] at hlt ⊢
              linarith
          · intro p2 hp2 hp2s
            rcases List.mem_cons.mp hp2 with h | h
            · subst h
              simp only [pyLt, decide_eq_false_iff_not, not_lt]
              linarith
            · exact hdom p2 h hp2s
          · have hfa : (fun p =>
                if p.1.1 = state then
                  (if pyEq p.2 (PyFloat.fin m) then some (some p.1.2) else none)
                else none) ((state, pa), PyFloat.fin x) = none := by
              simp [pyEq, ne_of_lt hxm]
            exact (head_filterMap_cons_none
              (fun p =>
                if p.1.1 = state then
                  (if pyEq p.2 (PyFloat.fin m) then some (some p.1.2) else none)
                else none)
              ((state, pa), PyFloat.fin x) rest hfa).trans hhead
      · have hltf : pyLt b.2 (PyFloat.fin x) = false := Bool.eq_false_iff.mpr hlt
        have step : best_scan state b (((state, pa), PyFloat.fin x) :: rest)
            = best_scan state b rest := by
          simp [best_scan, hltf]
        obtain ⟨c, hbc⟩ : ∃ c, b.2 = PyFloat.fin c := by
          rcases hb with hbn | h
          · rw [hbn] at hltf; exact absurd hltf (by simp [pyLt])
          · exact h
        have hxc : x ≤ c := by
          rw [hbc] at hltf
          simpa [pyLt, not_lt] using hltf
        rcases ih b hrest hb with ⟨hR, hdom⟩ | ⟨a0, m, hres, hmem, hgt, hdom, hhead⟩
        · left
          refine ⟨step.trans hR, ?_⟩
          intro p2 hp2 hp2s
          rcases List.mem_cons.mp hp2 with h | h
          · subst h; exact hltf
          · exact hdom p2 h hp2s
        · right
          have hcm : c < m := by
            rw [hbc] at hgt
            simpa [pyLt] using hgt
          refine ⟨a0, m, step.trans hres, List.mem_cons_of_mem _ hmem, hgt, ?_, ?_⟩
          · intro p2 hp2 hp2s
            rcases List.mem_cons.mp hp2 with h | h
            · subst h
              simp only [pyLt, decide_eq_false_iff_not, not_lt]
              linarith
            · exact hdom p2 h hp2s
          · have hxm2 : x ≠ m := by
              intro h
              rw [h] at hxc
              linarith
            have hfa : (fun p =>
                if p.1.1 = state then
                  (if pyEq p.2 (PyFloat.fin m) then some (some p.1.2) else none)
                else none) ((state, pa), PyFloat.fin x) = none := by
              simp [pyEq, hxm2]
            exact (head_filterMap_cons_none
              (fun p =>
                if p.1.1 = state then
                  (if pyEq p.2 (PyFloat.fin m) then some (some p.1.2) else none)
                else none)
              ((state, pa), PyFloat.fin x) rest hfa).trans hhead
    · have step : best_scan state b (((ps, pa), pv) :: rest)
          = best_scan state b rest := by
        simp [best_scan, hps]
      rcases ih b hrest hb with ⟨hR, hdom⟩ | ⟨a0, m, hres, hmem, hgt, hdom, hhead⟩
      · left
        refine ⟨step.trans hR, ?_⟩
        intro p2 hp2 hp2s
        rcases List.mem_cons.mp hp2 with h | h
        · subst h; exact absurd hp2s hps
        · exact hdom p2 h hp2s
      · right
        refine ⟨a0, m, step.trans hres, List.mem_cons_of_mem _ hmem, hgt, ?_, ?_⟩
        · intro p2 hp2 hp2s
          rcases List.mem_cons.mp hp2 with h | h
          · subst h; exact absurd hp2s hps
          · exact hdom p2 h hp2s
        · have hfa : (fun p =>
              if p.1.1 = state then
                (if pyEq p.2 (PyFloat.fin m) then some (some p.1.2) else none)
              else none) ((ps, pa), pv) = none := by
            simp [hps]
          exact (head_filterMap_cons_none
            (fun p =>
              if p.1.1 = state then
                (if pyEq p.2 (PyFloat.fin m) then some (some p.1.2) else none)
              else none)
            ((ps, pa), pv) rest hfa).trans hhead

/-- Counterexample to claim C6: on a table with a single entry for the
state, the candidate list handed to the injected epsilon_greedy function
is the two-element list holding action 0 twice (the first scan picks it
and the equality pass appends it again), so an action does appear more
than once. -/
theorem choose_best_list_duplicate :
    choose_best_list 1 ([((1, 0), PyFloat.fin 1)] : QTable ℕ ℕ)
        = [some 0, some 0]
      ∧ ¬ ([some 0, some 0] : List (Option ℕ)).Nodup := by
  constructor
  · norm_num [choose_best_list, best_scan, pyLt, pyEq, List.filterMap_cons]
  · decide

/-- Claim C6 as amended: the list passed to the injected epsilon_greedy
function is the first-encountered maximal action followed by every action
of the state whose value equals the maximum, in table order; so every
tied-best action is included and no non-maximal action appears, but the
first-encountered maximal action occurs twice, at the head and again as
the first element of the equality-pass tail (the final conjunct pins the
head a0 as the head of the tied actions in table order, hence the first
encountered); on a table with no entries for the state the list is the
one-element Python-None list and the call does not crash.  Stated for
finite-valued tables, matching the real-valued data model. -/
theorem choose_next_action_candidates (mdp : TohMdp S A) (state : S)
    (eps : ℚ) (q q0 : QTable S A) (f : List (Option A) → ℚ → Option A)
    (hfin : ∀ p ∈ q, p.1.1 = state → ∃ x, p.2 = PyFloat.fin x)
    (hne : ∃ p ∈ q, p.1.1 = state)
    (h0 : ∀ p ∈ q0, p.1.1 ≠ state) :
    choose_next_action mdp state eps q f = f (choose_best_list state q) eps
      ∧ choose_best_list state q0 = [none]
      ∧ ∃ a0 m,
          choose_best_list state q
              = some a0 :: q.filterMap (fun p =>
                  if p.1.1 = state then
                    (if pyEq p.2 (PyFloat.fin m) then some (some p.1.2) else none)
                  else none)
            ∧ ((state, a0), PyFloat.fin m) ∈ q
            ∧ (∀ p ∈ q, p.1.1 = state → pyLt (PyFloat.fin m) p.2 = false)
            ∧ some a0 ∈ q.filterMap (fun p =>
                if p.1.1 = state then
                  (if pyEq p.2 (PyFloat.fin m) then some (some p.1.2) else none)
                else none)
            ∧ (q.filterMap (fun p =>
                if p.1.1 = state then
                  (if pyEq p.2 (PyFloat.fin m) then some (some p.1.2) else none)
                else none)).head? = some (some a0) := by
  refine ⟨rfl, ?_, ?_⟩
  · rcases best_scan_spec state q0 (none, PyFloat.ninf)
      (fun p hp hps => absurd hps (h0 p hp)) (Or.inl rfl)
      with ⟨hR, _⟩ | ⟨a0, m, _, hmem, _, _, _⟩
    · simp only [choose_best_list]
      rw [hR]
      have hnil : q0.filterMap (fun p =>
          if p.1.1 = state then
            (if pyEq p.2 PyFloat.ninf then some (some p.1.2) else none)
          else none) = [] := by
        rw [List.filterMap_eq_nil_iff]
        intro p hp
        simp [h0 p hp]
      rw [hnil]
    · exact absurd rfl (h0 _ hmem)
  · rcases best_scan_spec state q (none, PyFloat.ninf) hfin (Or.inl rfl)
      with ⟨_, hdom⟩ | ⟨a0, m, hres, hmem, _, hdom, hhead⟩
    · exfalso
      obtain ⟨p, hp, hps⟩ := hne
      obtain ⟨x, hx⟩ := hfin p hp hps
      have := hdom p hp hps
      rw [hx] at this
      exact absurd this (by simp [pyLt])
    · refine ⟨a0, m, ?_, hmem, hdom, ?_, hhead⟩
      · simp only [choose_best_list]
        rw [hres]
      · exact List.mem_filterMap.mpr
          ⟨((state, a0), PyFloat.fin m), hmem, by simp [pyEq]⟩

/-- A concrete Q-table with two tied entries for state 1 and an unrelated
entry for state 2. -/
def qC6 : QTable ℕ ℕ :=
  [((1, 0), PyFloat.fin 1), ((1, 1), PyFloat.fin 1), ((2, 0), PyFloat.fin 5)]

/-- Witness for the amended claim C6 on the concrete table qC6 and the
empty table. -/
theorem choose_next_action_candidates_witness :
    (choose_next_action mdpG 1 0 qC6 (fun _ _ => none)
        = (fun _ _ => (none : Option ℕ)) (choose_best_list 1 qC6) 0)
      ∧ choose_best_list 1 ([] : QTable ℕ ℕ) = [none]
      ∧ ∃ a0 m,
          choose_best_list 1 qC6
              = some a0 :: qC6.filterMap (fun p =>
                  if p.1.1 = 1 then
                    (if pyEq p.2 (PyFloat.fin m) then some (some p.1.2) else none)
                  else none)
            ∧ ((1, a0), PyFloat.fin m) ∈ qC6
            ∧ (∀ p ∈ qC6, p.1.1 = 1 → pyLt (PyFloat.fin m) p.2 = false)
            ∧ some a0 ∈ qC6.filterMap (fun p =>
                if p.1.1 = 1 then
                  (if pyEq p.2 (PyFloat.fin m) then some (some p.1.2) else none)
                else none)
            ∧ (qC6.filterMap (fun p =>
                if p.1.1 = 1 then
                  (if pyEq p.2 (PyFloat.fin m) then some (some p.1.2) else none)
                else none)).head? = some (some a0) :=
  choose_next_action_candidates mdpG 1 0 qC6 [] (fun _ _ => none)
    (by
      intro p hp _
      simp only [qC6, List.mem_cons, List.not_mem_nil, or_false] at hp
      rcases hp with h | h | h <;> subst h
      · exact ⟨1, rfl⟩
      · exact ⟨1, rfl⟩
      · exact ⟨5, rfl⟩)
    ⟨((1, 0), PyFloat.fin 1), by simp [qC6], rfl⟩
    (fun p hp => absurd hp (List.not_mem_nil p))

theorem ev_step_other (v : VTable S) (p : (S × A) × PyFloat) (s : S)
    (h : s ≠ p.1.1) : dlookup (ev_step v p) s = dlookup v s := by
  unfold ev_step
  cases hv : dlookup v p.1.1 with
  | none =>
    simp only [hv, Option.isSome_none, Bool.false_eq_true, if_false,
      dlookup_dset_self]
    split
    · rw [dlookup_dset_ne _ _ _ _ h, dlookup_dset_ne _ _ _ _ h]
    · rw [dlookup_dset_ne _ _ _ _ h]
  | some cur =>
    simp only [hv, Option.isSome_some, if_true]
    split
    · exact dlookup_dset_ne _ _ _ _ h
    · rfl

theorem ev_loop_spec (s : S) :
    ∀ (l : QTable S A) (v0 : VTable S),
      (∀ p ∈ l, p.1.1 = s → ∃ x, p.2 = PyFloat.fin x) →
      ((dlookup v0 s = none →
          ((∀ p ∈ l, p.1.1 ≠ s) → dlookup (ev_loop v0 l) s = none)
          ∧ ((∃ p ∈ l, p.1.1 = s) →
              ∃ m, dlookup (ev_loop v0 l) s = some (PyFloat.fin m)
                ∧ (∃ p ∈ l, p.1.1 = s ∧ p.2 = PyFloat.fin m)
                ∧ (∀ p ∈ l, p.1.1 = s → pyLt (PyFloat.fin m) p.2 = false)))
        ∧ (∀ c, dlookup v0 s = some (PyFloat.fin c) →
            ∃ m, dlookup (ev_loop v0 l) s = some (PyFloat.fin m)
              ∧ (m = c ∨ ∃ p ∈ l, p.1.1 = s ∧ p.2 = PyFloat.fin m)
              ∧ pyLt (PyFloat.fin m) (PyFloat.fin c) = false
              ∧ (∀ p ∈ l, p.1.1 = s → pyLt (PyFloat.fin m) p.2 = false))) := by
  intro l
  induction l with
  | nil =>
    intro v0 _
    constructor
    · intro h0
      constructor
      · intro _; exact h0
      · intro hex
        obtain ⟨p, hp, _⟩ := hex
        exact absurd hp (List.not_mem_nil p)
    · intro c hc
      exact ⟨c, hc, Or.inl rfl, by simp [pyLt], by simp⟩
  | cons p rest ih =>
    intro v0 hfin
    obtain ⟨⟨ps, pa⟩, pv⟩ := p
    have hrest : ∀ p2 ∈ rest, p2.1.1 = s → ∃ x, p2.2 = PyFloat.fin x :=
      fun p2 hp2 hp2s => hfin p2 (List.mem_cons_of_mem _ hp2) hp2s
    by_cases hps : ps = s
    · have hps2 : s = ps := hps.symm
      subst hps2
      obtain ⟨x, hx⟩ := hfin _ (List.mem_cons_self _ _) rfl
      simp only at hx
      subst hx
      constructor
      · intro h0
        constructor
        · intro hall
          exact absurd rfl (hall _ (List.mem_cons_self _ _))
        · intro _
          have hstep : ev_loop v0 (((s, pa), PyFloat.fin x) :: rest)
              = ev_loop (dset (dset v0 s PyFloat.ninf) s (PyFloat.fin x)) rest := by
            simp [ev_loop, ev_step, h0, dlookup_dset_self, pyLt]
          obtain ⟨m, hm1, hm2, hm3, hm4⟩ :=
            (ih (dset (dset v0 s PyFloat.ninf) s (PyFloat.fin x)) hrest).2 x
              (dlookup_dset_self _ _ _)
          refine ⟨m, by rw [hstep]; exact hm1, ?_, ?_⟩
          · rcases hm2 with h | ⟨p2, hp2, hp2s, hp2v⟩
            · exact ⟨_, List.mem_cons_self _ _, rfl, by rw [h]⟩
            · exact ⟨p2, List.mem_cons_of_mem _ hp2, hp2s, hp2v⟩
          · intro p2 hp2 hp2s
            rcases List.mem_cons.mp hp2 with h | h
            · subst h; exact hm3
            · exact hm4 p2 h hp2s
      · intro c hc
        by_cases hcx : pyLt (PyFloat.fin c) (PyFloat.fin x) = true
        · have hstep : ev_loop v0 (((s, pa), PyFloat.fin x) :: rest)
              = ev_loop (dset v0 s (PyFloat.fin x)) rest := by
            simp [ev_loop, ev_step, hc, hcx]
          have hcxlt : c < x := by simpa [pyLt] using hcx
          obtain ⟨m, hm1, hm2, hm3, hm4⟩ :=
            (ih (dset v0 s (PyFloat.fin x)) hrest).2 x (dlookup_dset_self _ _ _)
          have hxm : x ≤ m := by
            simpa [pyLt, not_lt] using hm3
          refine ⟨m, by rw [hstep]; exact hm1, ?_, ?_, ?_⟩
          · rcases hm2 with h | ⟨p2, hp2, hp2s, hp2v⟩
            · exact Or.inr ⟨_, List.mem_cons_self _ _, rfl, by rw [h]⟩
            · exact Or.inr ⟨p2, List.mem_cons_of_mem _ hp2, hp2s, hp2v⟩
          · simp only [pyLt, decide_eq_false_iff_not, not_lt]
            linarith
          · intro p2 hp2 hp2s
            rcases List.mem_cons.mp hp2 with h | h
            · subst h; exact hm3
            · exact hm4 p2 h hp2s
        · have hcxf : pyLt (PyFloat.fin c) (PyFloat.fin x) = false :=
            Bool.eq_false_iff.mpr hcx
          have hstep : ev_loop v0 (((s, pa), PyFloat.fin x) :: rest)
              = ev_loop v0 rest := by
            simp [ev_loop, ev_step, hc, hcxf]
          have hxc : x ≤ c := by simpa [pyLt, not_lt] using hcxf
          obtain ⟨m, hm1, hm2, hm3, hm4⟩ := (ih v0 hrest).2 c hc
          have hcm : c ≤ m := by
            simpa [pyLt, not_lt] using hm3
          refine ⟨m, by rw [hstep]; exact hm1, ?_, hm3, ?_⟩
          · rcases hm2 with h | ⟨p2, hp2, hp2s, hp2v⟩
            · exact Or.inl h
            · exact Or.inr ⟨p2, List.mem_cons_of_mem _ hp2, hp2s, hp2v⟩
          · intro p2 hp2 hp2s
            rcases List.mem_cons.mp hp2 with h | h
            · subst h
              simp only [pyLt, decide_eq_false_iff_not, not_lt]
              linarith
            · exact hm4 p2 h hp2s
    · have hpres : dlookup (ev_step v0 ((ps, pa), pv)) s = dlookup v0 s :=
        ev_step_other v0 ((ps, pa), pv) s (fun h => hps h.symm)
      have hstep : ev_loop v0 (((ps, pa), pv) :: rest)
          = ev_loop (ev_step v0 ((ps, pa), pv)) rest := rfl
      constructor
      · intro h0
        have h0b : dlookup (ev_step v0 ((ps, pa), pv)) s = none :=
          hpres.trans h0
        constructor
        · intro hall
          rw [hstep]
          exact ((ih _ hrest).1 h0b).1
            (fun p2 hp2 => hall p2 (List.mem_cons_of_mem _ hp2))
        · intro hex
          obtain ⟨p2, hp2, hp2s⟩ := hex
          rcases List.mem_cons.mp hp2 with h | h
          · rw [h] at hp2s; exact absurd hp2s hps
          · obtain ⟨m, hm1, hm2, hm3⟩ := ((ih _ hrest).1 h0b).2 ⟨p2, h, hp2s⟩
            refine ⟨m, by rw [hstep]; exact hm1, ?_, ?_⟩
            · obtain ⟨p3, hp3, hp3s, hp3v⟩ := hm2
              exact ⟨p3, List.mem_cons_of_mem _ hp3, hp3s, hp3v⟩
            · intro p3 hp3 hp3s
              rcases List.mem_cons.mp hp3 with h3 | h3
              · rw [h3] at hp3s; exact absurd hp3s hps
              · exact hm3 p3 h3 hp3s
      · intro c hc
        obtain ⟨m, hm1, hm2, hm3, hm4⟩ := (ih _ hrest).2 c (hpres.trans hc)
        refine ⟨m, by rw [hstep]; exact hm1, ?_, hm3, ?_⟩
        · rcases hm2 with h | ⟨p2, hp2, hp2s, hp2v⟩
          · exact Or.inl h
          · exact Or.inr ⟨p2, List.mem_cons_of_mem _ hp2, hp2s, hp2v⟩
        · intro p2 hp2 hp2s
          rcases List.mem_cons.mp hp2 with h | h
          · rw [h] at hp2s; exact absurd hp2s hps
          · exact hm4 p2 h hp2s

/-- Claim C10, confirmed: on a finite-valued Q-table, extract_v_table has
a key for a state exactly when the table has an entry for it, and then the
stored value is attained by some entry of the state and no entry of the
state exceeds it, i.e. it is the maximum over the present entries; states
with no entries, the terminal state included, are absent. -/
theorem extract_v_table_spec (mdp : TohMdp S A) (q : QTable S A)
    (hfin : ∀ p ∈ q, ∃ x, p.2 = PyFloat.fin x) (s : S) :
    ((∀ p ∈ q, p.1.1 ≠ s) → dlookup (extract_v_table mdp q) s = none)
      ∧ ((∃ p ∈ q, p.1.1 = s) →
          ∃ m, dlookup (extract_v_table mdp q) s = some (PyFloat.fin m)
            ∧ (∃ p ∈ q, p.1.1 = s ∧ p.2 = PyFloat.fin m)
            ∧ (∀ p ∈ q, p.1.1 = s → pyLt (PyFloat.fin m) p.2 = false)) := by
  have h := (ev_loop_spec s q [] (fun p hp _ => hfin p hp)).1 rfl
  exact ⟨h.1, h.2⟩

/-- A concrete Q-table for the extract_v_table witness: two entries for
state 1 with maximum 7 and one entry for state 2. -/
def qC10 : QTable ℕ ℕ :=
  [((1, 0), PyFloat.fin 3), ((1, 1), PyFloat.fin 7), ((2, 0), PyFloat.fin 5)]

/-- Witness for claim C10 on the concrete table qC10 at state 1 (present,
value 7) and the absence of the terminal state 0. -/
theorem extract_v_table_spec_witness :
    (∃ p ∈ qC10, p.1.1 = (1 : ℕ))
      ∧ (∃ m, dlookup (extract_v_table mdpG qC10) 1 = some (PyFloat.fin m)
          ∧ (∃ p ∈ qC10, p.1.1 = 1 ∧ p.2 = PyFloat.fin m)
          ∧ (∀ p ∈ qC10, p.1.1 = 1 → pyLt (PyFloat.fin m) p.2 = false))
      ∧ (∀ p ∈ qC10, p.1.1 ≠ (0 : ℕ))
      ∧ dlookup (extract_v_table mdpG qC10) 0 = none :=
  ⟨⟨((1, 0), PyFloat.fin 3), by simp [qC10], rfl⟩,
    (extract_v_table_spec mdpG qC10
        (by
          intro p hp
          simp only [qC10, List.mem_cons, List.not_mem_nil, or_false] at hp
          rcases hp with h | h | h <;> subst h
          · exact ⟨3, rfl⟩
          · exact ⟨7, rfl⟩
          · exact ⟨5, rfl⟩) 1).2
      ⟨((1, 0), PyFloat.fin 3), by simp [qC10], rfl⟩,
    by decide,
    (extract_v_table_spec mdpG qC10
        (by
          intro p hp
          simp only [qC10, List.mem_cons, List.not_mem_nil, or_false] at hp
          rcases hp with h | h | h <;> subst h
          · exact ⟨3, rfl⟩
          · exact ⟨7, rfl⟩
          · exact ⟨5, rfl⟩) 0).1
      (by decide)⟩

end SolverUtils
